import Mathlib

/-!
Shallow embedding of the `vu` image viewer (src/view.rs, src/img.rs, src/anim.rs).

Conventions of the embedding:
- Machine integers (`u32`, `usize`, `i32`) are modelled as `Nat` and `Int`; none of the
  claims exercises wrap-around, and the source arithmetic stays far below the bit widths.
- `f32`/`f64` quantities (zoom factors, frame delays, the half-dimension arithmetic in
  `clamp_pan`) are modelled as `Rat`.  The source divides whole numbers by two and floors:
  for dimensions below 2^24 these `f32` operations are exact, so the integer floor model
  matches the source bit for bit there; zoom-step and delay arithmetic is the usual
  idealisation of floating point by the rationals.
- Byte buffers (`Vec<u8>`, `&[u8]`) are `List Nat`; a Rust slice-bounds panic or
  `copy_from_slice` length panic is modelled by returning `none`.
-/

namespace Vu

/-- CHANNELS constant from buffer_window in view.rs: RGBA, 4 bytes per pixel. -/
def CHANNELS : ℕ := 4

/-- PAN_STEP constant from view.rs (0.1, a fraction of the panned dimension). -/
def PAN_STEP : ℚ := 1/10

/-- ZOOM_STEP constant from view.rs (0.1). -/
def ZOOM_STEP : ℚ := 1/10

/-- MIN_ZOOM constant from view.rs (0.5). -/
def MIN_ZOOM : ℚ := 1/2

/-- flat_idx from view.rs. -/
def flat_idx (x y w : ℕ) : ℕ := y * w + x

/-- centered_span from view.rs.  The Rust arguments are `i32`; the two dimensions come
    from `u32` values and are nonnegative, so they are taken as `Nat` here, and `i32`
    truncating division by 2 agrees with floor division on them.  The offset is a
    genuine `i32`.  The returned `start` has been clamped into `[0, img_dim]`, so the
    `as usize` cast is the `Int.toNat` below. -/
def centered_span (img_dim win_dim : ℕ) (offset : ℤ) : ℕ × ℕ :=
  let img_center : ℤ := (img_dim : ℤ) / 2 + offset
  let win_center : ℤ := (win_dim : ℤ) / 2
  let start : ℤ := min (max (img_center - win_center) 0) (img_dim : ℤ)
  (start.toNat, start.toNat + win_dim)

/-- The per-axis pan limit computed inside ImageView::clamp_pan in view.rs:
    `((im as f32 / 2. - tx as f32 / 2.).floor() as i32).max(0)`.
    Halving a whole number is exact in f32 (dimensions < 2^24), and the difference of two
    exactly-representable multiples of one half is exact, so the floor equals the integer
    floor of `(im - tx) / 2`. -/
def pan_limit (im tx : ℕ) : ℤ := max (((im : ℤ) - (tx : ℤ)) / 2) 0

/-- Rust `i32::clamp(lo, hi)` for `lo ≤ hi`. -/
def clampI (x lo hi : ℤ) : ℤ := min (max x lo) hi

/-- Writing `row` into `res` starting at byte `idx`: the model of
    `result[idx..end_idx].copy_from_slice(im_row)` in view.rs. -/
def writeSlice (res : List ℕ) (idx : ℕ) (row : List ℕ) : List ℕ :=
  res.take idx ++ row ++ res.drop (idx + row.length)

/-- One iteration of the copy loop in buffer_window (view.rs): read the source row span
    `buffer[a..b]` and copy it into the destination at `(padding_x, padding_y + i)`.
    Returns `none` when a slice range would be out of bounds (a Rust panic). -/
def copyRow (buffer : List ℕ) (img_width win_width padding_x padding_y start_x slice_width : ℕ)
    (res : List ℕ) (i y : ℕ) : Option (List ℕ) :=
  let a := flat_idx start_x y img_width * CHANNELS
  let b := a + slice_width * CHANNELS
  if b ≤ buffer.length then
    let im_row := (buffer.drop a).take (slice_width * CHANNELS)
    let idx := flat_idx padding_x (padding_y + i) win_width * CHANNELS
    if idx + slice_width * CHANNELS ≤ res.length then
      some (writeSlice res idx im_row)
    else none
  else none

/-- The `for (i, y) in (start_y..end_y).enumerate()` loop of buffer_window: `rows` many
    iterations remain, the current enumeration index is `i`, and each iteration works on
    source row `y = start_y + i`. -/
def copyRows (buffer : List ℕ)
    (img_width win_width padding_x padding_y start_x slice_width start_y : ℕ)
    (res : List ℕ) (i rows : ℕ) : Option (List ℕ) :=
  match rows with
  | 0 => some res
  | r + 1 =>
    match copyRow buffer img_width win_width padding_x padding_y start_x slice_width
        res i (start_y + i) with
    | none => none
    | some res2 =>
      copyRows buffer img_width win_width padding_x padding_y start_x slice_width start_y
        res2 (i + 1) r

/-- The padding computation of buffer_window in view.rs:
    `win.saturating_sub(img) / 2`; saturating subtraction is `Nat` subtraction. -/
def buffer_padding (win img : ℕ) : ℕ := (win - img) / 2

/-- buffer_window from view.rs.  The destination is freshly allocated and zero-filled
    (`vec![0u8; ..]`), which is the pre-existing value of every padding byte. -/
def buffer_window (buffer : List ℕ) (img win : ℕ × ℕ) (off : ℤ × ℤ) : Option (List ℕ) :=
  let img_width := img.1
  let img_height := img.2
  let win_width := win.1
  let win_height := win.2
  let padding_x := buffer_padding win_width img_width
  let padding_y := buffer_padding win_height img_height
  let sx := centered_span img_width win_width off.1
  let sy := centered_span img_height win_height off.2
  let end_y := min sy.2 img_height
  let slice_width := min (sx.2 - sx.1) img_width
  let res := List.replicate (win_width * win_height * CHANNELS) 0
  copyRows buffer img_width win_width padding_x padding_y sx.1 slice_width sy.1
    res 0 (end_y - sy.1)

/-- The Image enum from img.rs: a single still frame, or a cyclic sequence of frames with
    per-frame delays (seconds) and a cursor index. -/
inductive Image where
  | single (data : List ℕ) (size : ℕ × ℕ)
  | sequence (frames : List (List ℕ)) (delays : List ℚ) (index : ℕ) (size : ℕ × ℕ)
deriving DecidableEq

/-- Image::size from img.rs. -/
def Image.size : Image → ℕ × ℕ
  | .single _ s => s
  | .sequence _ _ _ s => s

/-- Image::delays from img.rs. -/
def Image.delays : Image → Option (List ℚ)
  | .sequence _ ds _ _ => some ds
  | _ => none

/-- Image::next_frame from img.rs.  For a sequence it returns `frames[index % frames.len()]`
    and increments the cursor.  `none` models the Rust panic `index % 0` on an empty
    sequence (which never arises: sequences are non-empty by decoder contract). -/
def Image.next_frame : Image → Option (List ℕ × Image)
  | .single data s => some (data, .single data s)
  | .sequence frames ds ix s =>
    (frames[ix % frames.length]?).map fun data => (data, .sequence frames ds (ix + 1) s)

/-- scale_size from img.rs: `(dim as f32 * scale).round() as u32` per axis.  f32 `round`
    rounds half away from zero, which for the nonnegative products arising here is
    `floor(x + 1/2)`; the `as u32` cast of a negative rounds to 0, matching `Int.toNat`. -/
def scale_size (size : ℕ × ℕ) (scale : ℚ) : ℕ × ℕ :=
  ((⌊(size.1 : ℚ) * scale + 1/2⌋).toNat, (⌊(size.2 : ℚ) * scale + 1/2⌋).toNat)

/-- Modelled from the spec: the body of scale_image_fast in img.rs delegates to the
    external fast_image_resize crate (ResizeAlg::Nearest), which is not part of this
    repository.  Per the spec (section 4.1) scaling resamples with nearest-neighbour and
    the resulting size is `round(original_dim * factor)` per axis.  Nearest-neighbour
    source-pixel selection is modelled by index scaling clamped to the source bounds; no
    claim depends on the resampled byte values, only on the produced dimensions. -/
def scale_image_fast (image : List ℕ) (size : ℕ × ℕ) (scale : ℚ) : List ℕ × (ℕ × ℕ) :=
  let target := scale_size size scale
  let data := (List.range target.2).flatMap fun y =>
    (List.range target.1).flatMap fun x =>
      let src_x := min (x * size.1 / target.1) (size.1 - 1)
      let src_y := min (y * size.2 / target.2) (size.2 - 1)
      (List.range CHANNELS).map fun c => image.getD (flat_idx src_x src_y size.1 * CHANNELS + c) 0
  (data, target)

/-- Image::scaled from img.rs: rescale every retained frame, preserving delays and the
    cursor position. -/
def Image.scaled : Image → ℚ → Image
  | .single data s, scale =>
    let r := scale_image_fast data s scale
    .single r.1 r.2
  | .sequence frames ds ix s, scale =>
    .sequence (frames.map fun f => (scale_image_fast f s scale).1) ds ix (scale_size s scale)

/-- Model of the pixels::Pixels surface held by ImageView: the texture dimensions, the
    frame byte buffer, and an abstract flag giving the outcome of the opaque external
    `render()` presentation call. -/
structure Pixels where
  width : ℕ
  height : ℕ
  frame : List ℕ
  renderOk : Bool

/-- The ImageView struct from view.rs. -/
structure ImageView where
  zoom : ℚ
  pan : ℤ × ℤ
  pixels : Pixels
  image : Image
  scaled : Option Image

/-- view_buffer_window from view.rs: window the next frame of `image` into the texture
    area and overwrite the frame buffer with it.  `none` models a panic (slice out of
    bounds inside buffer_window, or the `copy_from_slice` length mismatch).  Returns the
    updated surface and the image with its cursor advanced. -/
def view_buffer_window (pixels : Pixels) (image : Image) (pan : ℤ × ℤ) :
    Option (Pixels × Image) :=
  match image.next_frame with
  | none => none
  | some r =>
    match buffer_window r.1 image.size (pixels.width, pixels.height) pan with
    | none => none
    | some view =>
      if view.length = pixels.frame.length then
        some ({ pixels with frame := view }, r.2)
      else none

/-- ImageView::image_size from view.rs: the scaled size when a scaled cache is present,
    the base size otherwise. -/
def ImageView.image_size (v : ImageView) : ℕ × ℕ :=
  (v.scaled.getD v.image).size

/-- ImageView::clamp_pan from view.rs, returning the clamped pan. -/
def ImageView.clamp_pan (v : ImageView) : ℤ × ℤ :=
  let im := v.image_size
  let xl := pan_limit im.1 v.pixels.width
  let yl := pan_limit im.2 v.pixels.height
  (clampI v.pan.1 (-xl) xl, clampI v.pan.2 (-yl) yl)

/-- ImageView::update from view.rs: clamp the pan, then window the next frame of the
    scaled cache if present, otherwise of the base image. -/
def ImageView.update (v : ImageView) : Option ImageView :=
  let pan := v.clamp_pan
  match v.scaled with
  | some s =>
    (view_buffer_window v.pixels s pan).map fun r =>
      { v with pan := pan, pixels := r.1, scaled := some r.2 }
  | none =>
    (view_buffer_window v.pixels v.image pan).map fun r =>
      { v with pan := pan, pixels := r.1, image := r.2 }

/-- ImageView::draw from view.rs: `self.pixels.render().is_ok()`. -/
def ImageView.draw (v : ImageView) : Bool := v.pixels.renderOk

/-- ImageView::advance from view.rs: update, then draw, returning whether presentation
    succeeded. -/
def ImageView.advance (v : ImageView) : Option (Bool × ImageView) :=
  v.update.map fun v2 => (v2.draw, v2)

/-- ImageView::set_zoom from view.rs: store the zoom, regenerate the scaled cache from
    the base image at that zoom, update and draw (the draw result is discarded). -/
def ImageView.set_zoom (v : ImageView) (zoom : ℚ) : Option ImageView :=
  ImageView.update { v with zoom := zoom, scaled := some (v.image.scaled zoom) }

/-- ImageView::zoom_in from view.rs. -/
def ImageView.zoom_in (v : ImageView) : Option ImageView :=
  v.set_zoom (v.zoom + ZOOM_STEP)

/-- ImageView::zoom_out from view.rs: the new zoom is floored at MIN_ZOOM. -/
def ImageView.zoom_out (v : ImageView) : Option ImageView :=
  v.set_zoom (max (v.zoom - ZOOM_STEP) MIN_ZOOM)

/-- ImageView::resize from view.rs.  resize_surface/resize_buffer belong to the external
    pixels crate; resizing the buffer is modelled as reallocating the frame at the new
    size, cleared.  With fit_image set, the new zoom is the minimum of the width and
    height ratios, passed to set_zoom without any further clamping. -/
def ImageView.resize (v : ImageView) (width height : ℕ) (fit_image : Bool) :
    Option ImageView :=
  let pixels : Pixels :=
    { v.pixels with
      width := width, height := height,
      frame := List.replicate (width * height * CHANNELS) 0 }
  let v2 := { v with pixels := pixels }
  if fit_image then
    let s := v.image.size
    v2.set_zoom (min ((width : ℚ) / (s.1 : ℚ)) ((height : ℚ) / (s.2 : ℚ)))
  else some v2

/-- ImageView::new from view.rs, after the decoder and the window-system calls: the
    texture is created at the image size, the pan starts at (0,0), the zoom at 1, and an
    initial windowing pass fills the frame.  The renderOk flag abstracts the external
    surface presentation outcome. -/
def ImageView.init (image : Image) (renderOk : Bool) : Option ImageView :=
  let s := image.size
  let pixels : Pixels :=
    { width := s.1
      height := s.2
      frame := List.replicate (s.1 * s.2 * CHANNELS) 0
      renderOk := renderOk }
  (view_buffer_window pixels image (0, 0)).map fun r =>
    { zoom := 1, pan := (0, 0), pixels := r.1, image := r.2, scaled := none }

/-- ImageView::pan_up from view.rs. -/
def ImageView.pan_up (v : ImageView) : Option ImageView :=
  ImageView.update
    { v with pan := (v.pan.1, v.pan.2 - ⌊(v.image_size.2 : ℚ) * PAN_STEP⌋) }

/-- ImageView::pan_down from view.rs. -/
def ImageView.pan_down (v : ImageView) : Option ImageView :=
  ImageView.update
    { v with pan := (v.pan.1, v.pan.2 + ⌊(v.image_size.2 : ℚ) * PAN_STEP⌋) }

/-- ImageView::pan_right from view.rs. -/
def ImageView.pan_right (v : ImageView) : Option ImageView :=
  ImageView.update
    { v with pan := (v.pan.1 + ⌊(v.image_size.1 : ℚ) * PAN_STEP⌋, v.pan.2) }

/-- ImageView::pan_left from view.rs. -/
def ImageView.pan_left (v : ImageView) : Option ImageView :=
  ImageView.update
    { v with pan := (v.pan.1 - ⌊(v.image_size.1 : ℚ) * PAN_STEP⌋, v.pan.2) }

/-- Events observable from the Animator worker thread (anim.rs): a load of the running
    flag, and the emission of a RequestNextFrame signal (ok records whether the send into
    the event-loop sink succeeded). -/
inductive WEvent where
  | checkFlag (b : Bool)
  | send (ok : Bool)
deriving DecidableEq

/-- One pass of the inner `for delay in delays` loop of the worker spawned by
    Animator::new (anim.rs): sleep through each delay in turn and emit one signal after
    each sleep, aborting the pass when a send fails.  Time is idealised rational seconds;
    a send at time `u` succeeds iff `u < tSink` (the sink is torn down at `tSink`).
    Returns the timed event trace, the time when the pass ends, and whether it aborted. -/
def passRun (tSink : ℚ) : List ℚ → ℚ → List (ℚ × WEvent) × ℚ × Bool
  | [], t => ([], t, false)
  | d :: ds, t =>
    let u := t + d
    if u < tSink then
      let r := passRun tSink ds u
      ((u, WEvent.send true) :: r.1, r.2)
    else ([(u, WEvent.send false)], u, true)

/-- The worker loop of Animator::new (anim.rs): load the flag (true iff the current time
    is before tStop, the moment Animator::drop stores false), and if it is set run one
    full pass over the delay list, repeating until the flag reads false or a send fails.
    Fuel bounds the number of outer iterations; the second component is the time at which
    the worker returns (`none` when the fuel runs out first). -/
def workerRun (delays : List ℚ) (tStop tSink : ℚ) : ℕ → ℚ → List (ℚ × WEvent) × Option ℚ
  | 0, _ => ([], none)
  | fuel + 1, t =>
    if t < tStop then
      let p := passRun tSink delays t
      if p.2.2 then ((t, WEvent.checkFlag true) :: p.1, some p.2.1)
      else
        let w := workerRun delays tStop tSink fuel p.2.1
        ((t, WEvent.checkFlag true) :: p.1 ++ w.1, w.2)
    else ([(t, WEvent.checkFlag false)], some t)

/-- True when the trace emits a signal after the flag has been observed cleared. -/
def sends_after_flag_clear : List (ℚ × WEvent) → Bool
  | [] => false
  | (_, WEvent.checkFlag false) :: rest =>
    rest.any fun e =>
      match e.2 with
      | WEvent.send _ => true
      | _ => false
  | _ :: rest => sends_after_flag_clear rest

/-- The result of the i-th next_frame call (0-based), threading the mutated image. -/
def next_frame_iter : Image → ℕ → Option (List ℕ × Image)
  | img, 0 => img.next_frame
  | img, n + 1 => img.next_frame.bind fun r => next_frame_iter r.2 n

/-- Concrete ImageView in a zoomed state: the base frame holds bytes 1, the scaled cache
    holds bytes 9, both 1x1, with a 1x1 surface. -/
def viewC1 : ImageView :=
  { zoom := 2, pan := (0, 0),
    pixels := { width := 1, height := 1, frame := [0, 0, 0, 0], renderOk := true },
    image := .single [1, 1, 1, 1] (1, 1),
    scaled := some (.single [9, 9, 9, 9] (1, 1)) }

/-- The state after one advance of viewC1: the frame shows the scaled cache bytes. -/
def viewC1adv : ImageView :=
  { zoom := 2, pan := (0, 0),
    pixels := { width := 1, height := 1, frame := [9, 9, 9, 9], renderOk := true },
    image := .single [1, 1, 1, 1] (1, 1),
    scaled := some (.single [9, 9, 9, 9] (1, 1)) }

/-- Concrete 1x1 still-image view at zoom 1, used as a well-formed starting state. -/
def vOne : ImageView :=
  { zoom := 1, pan := (0, 0),
    pixels := { width := 1, height := 1, frame := [8, 8, 8, 8], renderOk := true },
    image := .single [8, 8, 8, 8] (1, 1),
    scaled := none }

/-- vOne after zoom_in: zoom raised one step, scaled cache regenerated at 1x1. -/
def vOneIn : ImageView :=
  { zoom := 1 + ZOOM_STEP, pan := (0, 0),
    pixels := { width := 1, height := 1, frame := [8, 8, 8, 8], renderOk := true },
    image := .single [8, 8, 8, 8] (1, 1),
    scaled := some (.single [8, 8, 8, 8] (1, 1)) }

/-- vOne after zoom_out: zoom lowered one step (stays above the floor). -/
def vOneOut : ImageView :=
  { zoom := 9/10, pan := (0, 0),
    pixels := { width := 1, height := 1, frame := [8, 8, 8, 8], renderOk := true },
    image := .single [8, 8, 8, 8] (1, 1),
    scaled := some (.single [8, 8, 8, 8] (1, 1)) }

/-- vOne after zoom_in then zoom_out: the zoom is back at 1. -/
def vOneRT : ImageView :=
  { zoom := 1, pan := (0, 0),
    pixels := { width := 1, height := 1, frame := [8, 8, 8, 8], renderOk := true },
    image := .single [8, 8, 8, 8] (1, 1),
    scaled := some (.single [8, 8, 8, 8] (1, 1)) }

/-- vOne after resize 2 2 without fit_image: only the surface changes. -/
def vOneRz : ImageView :=
  { zoom := 1, pan := (0, 0),
    pixels :=
      { width := 2
        height := 2
        frame := List.replicate (2 * 2 * CHANNELS) 0
        renderOk := true },
    image := .single [8, 8, 8, 8] (1, 1),
    scaled := none }

/-- Concrete 3x3 still-image view used for the resize fit_image counterexample. -/
def viewC3 : ImageView :=
  { zoom := 1, pan := (0, 0),
    pixels := { width := 3, height := 3, frame := List.replicate 36 0, renderOk := true },
    image := .single (List.replicate 36 5) (3, 3),
    scaled := none }

/-- viewC3 after resize 1 1 with fit_image: the zoom drops to 1/3, below MIN_ZOOM. -/
def viewC3R : ImageView :=
  { zoom := 1/3, pan := (0, 0),
    pixels := { width := 1, height := 1, frame := [5, 5, 5, 5], renderOk := true },
    image := .single (List.replicate 36 5) (3, 3),
    scaled := some (.single [5, 5, 5, 5] (1, 1)) }

/-- Concrete 1x1 view whose zoom 1/4 sits below MIN_ZOOM (reachable via resize with
    fit_image, see the resize counterexample). -/
def viewC6 : ImageView :=
  { zoom := 1/4, pan := (0, 0),
    pixels := { width := 1, height := 1, frame := [5, 5, 5, 5], renderOk := true },
    image := .single [5, 5, 5, 5] (1, 1),
    scaled := none }

/-- viewC6 after zoom_in: zoom 7/20; the scaled image rounds down to 0x0. -/
def viewC6In : ImageView :=
  { zoom := 7/20, pan := (0, 0),
    pixels := { width := 1, height := 1, frame := [0, 0, 0, 0], renderOk := true },
    image := .single [5, 5, 5, 5] (1, 1),
    scaled := some (.single [] (0, 0)) }

/-- viewC6 after zoom_in then zoom_out: the floor snaps the zoom to 1/2, not back
    to 1/4. -/
def viewC6RT : ImageView :=
  { zoom := 1/2, pan := (0, 0),
    pixels := { width := 1, height := 1, frame := [5, 5, 5, 5], renderOk := true },
    image := .single [5, 5, 5, 5] (1, 1),
    scaled := some (.single [5, 5, 5, 5] (1, 1)) }

/-! ### Lemmas about the windowing copy loop -/

theorem writeSlice_length (res row : List ℕ) (idx : ℕ) (h : idx + row.length ≤ res.length) :
    (writeSlice res idx row).length = res.length := by
  simp only [writeSlice, List.length_append, List.length_take, List.length_drop]
  omega

theorem writeSlice_getElem (res row : List ℕ) (idx p : ℕ) (h : idx + row.length ≤ res.length) :
    (writeSlice res idx row)[p]? =
      if idx ≤ p ∧ p < idx + row.length then row[p - idx]? else res[p]? := by
  have ht : (res.take idx).length = idx := by simp only [List.length_take]; omega
  unfold writeSlice
  rcases lt_or_le p idx with hp | hp
  · rw [if_neg (by omega)]
    rw [List.getElem?_append_left (by simp only [List.length_append, ht]; omega)]
    rw [List.getElem?_append_left (by rw [ht]; exact hp)]
    exact List.getElem?_take_of_lt hp
  · rcases lt_or_le p (idx + row.length) with hq | hq
    · rw [if_pos ⟨hp, hq⟩]
      rw [List.getElem?_append_left (by simp only [List.length_append, ht]; omega)]
      rw [List.getElem?_append_right (by rw [ht]; exact hp)]
      rw [ht]
    · rw [if_neg (by omega)]
      rw [List.getElem?_append_right (by simp only [List.length_append, ht]; omega)]
      rw [List.getElem?_drop]
      congr 1
      simp only [List.length_append, ht]
      omega

theorem copyRow_inv {buffer : List ℕ} {iw ww px py sx sl : ℕ} {res res2 : List ℕ} {i y : ℕ}
    (h : copyRow buffer iw ww px py sx sl res i y = some res2) :
    flat_idx sx y iw * CHANNELS + sl * CHANNELS ≤ buffer.length ∧
    flat_idx px (py + i) ww * CHANNELS + sl * CHANNELS ≤ res.length ∧
    res2 = writeSlice res (flat_idx px (py + i) ww * CHANNELS)
      ((buffer.drop (flat_idx sx y iw * CHANNELS)).take (sl * CHANNELS)) := by
  simp only [copyRow] at h
  split_ifs at h with h1 h2
  exact ⟨h1, h2, (Option.some_inj.mp h).symm⟩

theorem copyRow_length {buffer : List ℕ} {iw ww px py sx sl : ℕ} {res res2 : List ℕ} {i y : ℕ}
    (h : copyRow buffer iw ww px py sx sl res i y = some res2) :
    res2.length = res.length := by
  obtain ⟨h1, h2, rfl⟩ := copyRow_inv h
  have hlr : ((buffer.drop (flat_idx sx y iw * CHANNELS)).take (sl * CHANNELS)).length
      = sl * CHANNELS := by
    simp only [List.length_take, List.length_drop]
    omega
  rw [writeSlice_length _ _ _ (by rw [hlr]; exact h2)]

theorem copyRow_getElem {buffer : List ℕ} {iw ww px py sx sl : ℕ} {res res2 : List ℕ}
    {i y : ℕ} (h : copyRow buffer iw ww px py sx sl res i y = some res2) (p : ℕ) :
    res2[p]? =
      if flat_idx px (py + i) ww * CHANNELS ≤ p ∧
          p < flat_idx px (py + i) ww * CHANNELS + sl * CHANNELS then
        buffer[flat_idx sx y iw * CHANNELS + (p - flat_idx px (py + i) ww * CHANNELS)]?
      else res[p]? := by
  obtain ⟨h1, h2, rfl⟩ := copyRow_inv h
  have hlr : ((buffer.drop (flat_idx sx y iw * CHANNELS)).take (sl * CHANNELS)).length
      = sl * CHANNELS := by
    simp only [List.length_take, List.length_drop]
    omega
  rw [writeSlice_getElem _ _ _ _ (by rw [hlr]; exact h2), hlr]
  split_ifs with hin
  · rw [List.getElem?_take_of_lt (by omega), List.getElem?_drop]
  · rfl

theorem copyRows_length {buffer : List ℕ} {iw ww px py sx sl sy0 : ℕ} {res res2 : List ℕ}
    {i rows : ℕ} (h : copyRows buffer iw ww px py sx sl sy0 res i rows = some res2) :
    res2.length = res.length := by
  induction rows generalizing i res with
  | zero =>
    obtain rfl := Option.some_inj.mp h
    rfl
  | succ r ih =>
    simp only [copyRows] at h
    cases h1 : copyRow buffer iw ww px py sx sl res i (sy0 + i) with
    | none => rw [h1] at h; cases h
    | some res1 =>
      rw [h1] at h
      exact (ih h).trans (copyRow_length h1)

theorem copyRows_some {buffer : List ℕ} {iw ww px py sx sl sy0 : ℕ} (res : List ℕ)
    (i rows : ℕ)
    (hbu : ∀ j, i ≤ j → j < i + rows →
      flat_idx sx (sy0 + j) iw * CHANNELS + sl * CHANNELS ≤ buffer.length)
    (hre : ∀ j, i ≤ j → j < i + rows →
      flat_idx px (py + j) ww * CHANNELS + sl * CHANNELS ≤ res.length) :
    ∃ res2, copyRows buffer iw ww px py sx sl sy0 res i rows = some res2 := by
  induction rows generalizing i res with
  | zero => exact ⟨res, rfl⟩
  | succ r ih =>
    obtain ⟨res1, h1⟩ : ∃ res1, copyRow buffer iw ww px py sx sl res i (sy0 + i) = some res1 :=
      ⟨_, by
        simp only [copyRow]
        rw [if_pos (hbu i le_rfl (by omega)), if_pos (hre i le_rfl (by omega))]⟩
    have hlen := copyRow_length h1
    obtain ⟨res2, h2⟩ := ih res1 (i + 1)
      (fun j hj hj2 => hbu j (by omega) (by omega))
      (fun j hj hj2 => by rw [hlen]; exact hre j (by omega) (by omega))
    refine ⟨res2, ?_⟩
    simp only [copyRows]
    rw [h1]
    exact h2

theorem copyRows_untouched {buffer : List ℕ} {iw ww px py sx sl sy0 : ℕ} {res res2 : List ℕ}
    {i rows : ℕ} (h : copyRows buffer iw ww px py sx sl sy0 res i rows = some res2) (p : ℕ)
    (hout : ∀ j, i ≤ j → j < i + rows →
      ¬(flat_idx px (py + j) ww * CHANNELS ≤ p ∧
        p < flat_idx px (py + j) ww * CHANNELS + sl * CHANNELS)) :
    res2[p]? = res[p]? := by
  induction rows generalizing i res with
  | zero =>
    obtain rfl := Option.some_inj.mp h
    rfl
  | succ r ih =>
    simp only [copyRows] at h
    cases h1 : copyRow buffer iw ww px py sx sl res i (sy0 + i) with
    | none => rw [h1] at h; cases h
    | some res1 =>
      rw [h1] at h
      rw [ih h (fun j hj hj2 => hout j (by omega) (by omega))]
      rw [copyRow_getElem h1 p, if_neg (hout i le_rfl (by omega))]

theorem destIdx_mono {ww px sl py : ℕ} (hd : px + sl ≤ ww) {a b : ℕ} (hab : a < b) :
    flat_idx px (py + a) ww * CHANNELS + sl * CHANNELS ≤ flat_idx px (py + b) ww * CHANNELS := by
  simp only [flat_idx, CHANNELS]
  have h1 : (py + a + 1) * ww ≤ (py + b) * ww := Nat.mul_le_mul_right ww (by omega)
  have h2 : (py + a + 1) * ww = (py + a) * ww + ww := by ring
  omega

theorem copyRows_written {buffer : List ℕ} {iw ww px py sx sl sy0 : ℕ} {res res2 : List ℕ}
    {i rows : ℕ} (h : copyRows buffer iw ww px py sx sl sy0 res i rows = some res2)
    (hdisj : px + sl ≤ ww) (j p : ℕ) (hij : i ≤ j) (hjr : j < i + rows)
    (hin : flat_idx px (py + j) ww * CHANNELS ≤ p ∧
      p < flat_idx px (py + j) ww * CHANNELS + sl * CHANNELS) :
    res2[p]? = buffer[flat_idx sx (sy0 + j) iw * CHANNELS +
      (p - flat_idx px (py + j) ww * CHANNELS)]? := by
  induction rows generalizing i res with
  | zero => omega
  | succ r ih =>
    simp only [copyRows] at h
    cases h1 : copyRow buffer iw ww px py sx sl res i (sy0 + i) with
    | none => rw [h1] at h; cases h
    | some res1 =>
      rw [h1] at h
      rcases eq_or_lt_of_le hij with rfl | hlt
      · rw [copyRows_untouched h p ?_]
        · rw [copyRow_getElem h1 p, if_pos hin]
        · intro j2 hj2 hj22
          have hmono := @destIdx_mono ww px sl py hdisj i j2 (show i < j2 by omega)
          intro hcon
          omega
      · exact ih h (by omega) (by omega)

/-! ### Arithmetic facts about centered_span, pan_limit and the paddings -/

theorem centered_span_sub (I W : ℕ) (off : ℤ) :
    (centered_span I W off).2 - (centered_span I W off).1 = W := by
  simp [centered_span]

theorem pan_limit_nonneg (I W : ℕ) : 0 ≤ pan_limit I W := le_max_right _ _

theorem pan_limit_zero_of_le {I W : ℕ} (h : I ≤ W) : pan_limit I W = 0 := by
  simp only [pan_limit]
  omega

theorem centered_span_start_le {I W : ℕ} {off : ℤ}
    (hL : -pan_limit I W ≤ off) (hU : off ≤ pan_limit I W) :
    (centered_span I W off).1 + min W I ≤ I := by
  simp only [centered_span, pan_limit] at *
  omega

theorem centered_span_rows_le {I W : ℕ} {off : ℤ}
    (hL : -pan_limit I W ≤ off) (hU : off ≤ pan_limit I W) :
    buffer_padding W I + (min (centered_span I W off).2 I - (centered_span I W off).1) ≤ W ∧
    (centered_span I W off).1 + (min (centered_span I W off).2 I - (centered_span I W off).1)
      ≤ I := by
  simp only [centered_span, pan_limit, buffer_padding] at *
  constructor <;> omega

theorem centered_span_zero_of_le {I W : ℕ} (h : I ≤ W) : centered_span I W 0 = (0, W) := by
  simp only [centered_span, Prod.mk.injEq]
  constructor <;> omega

theorem buffer_padding_slice_le (W I : ℕ) : buffer_padding W I + min W I ≤ W := by
  simp only [buffer_padding]
  omega

theorem row_end_le {y h s sl w : ℕ} (hy : y < h) (hsl : s + sl ≤ w) :
    flat_idx s y w * CHANNELS + sl * CHANNELS ≤ w * h * CHANNELS := by
  simp only [flat_idx, CHANNELS]
  have h1 : (y + 1) * w ≤ h * w := Nat.mul_le_mul_right w (by omega)
  have h2 : (y + 1) * w = y * w + w := by ring
  have h3 : h * w = w * h := by ring
  omega

/-! ### Safety and content of buffer_window -/

theorem buffer_window_safe {buffer : List ℕ} {iw ih ww wh : ℕ} {ox oy : ℤ}
    (hb : buffer.length = iw * ih * CHANNELS)
    (hx1 : -pan_limit iw ww ≤ ox) (hx2 : ox ≤ pan_limit iw ww)
    (hy1 : -pan_limit ih wh ≤ oy) (hy2 : oy ≤ pan_limit ih wh) :
    ∃ res, buffer_window buffer (iw, ih) (ww, wh) (ox, oy) = some res ∧
      res.length = ww * wh * CHANNELS := by
  have hxb : (centered_span iw ww ox).1 + min ww iw ≤ iw := centered_span_start_le hx1 hx2
  have hyb := centered_span_rows_le hy1 hy2
  obtain ⟨res2, h2⟩ := copyRows_some (List.replicate (ww * wh * CHANNELS) 0) 0
    (min (centered_span ih wh oy).2 ih - (centered_span ih wh oy).1)
    (fun j hj hj2 => by
      rw [hb]
      exact row_end_le (show (centered_span ih wh oy).1 + j < ih by omega) hxb)
    (fun j hj hj2 => by
      rw [List.length_replicate]
      exact row_end_le (show buffer_padding wh ih + j < wh by omega)
        (buffer_padding_slice_le ww iw))
  refine ⟨res2, ?_, ?_⟩
  · simp only [buffer_window]
    rw [centered_span_sub]
    exact h2
  · rw [copyRows_length h2, List.length_replicate]

theorem replicate_getElem_lt {n v p : ℕ} (h : p < n) :
    (List.replicate n v)[p]? = some v := by
  simp [List.getElem?_replicate, h]

theorem coord_lt_len {ww wh x y c : ℕ} (hx : x < ww) (hy : y < wh) (hc : c < CHANNELS) :
    flat_idx x y ww * CHANNELS + c < ww * wh * CHANNELS := by
  have := row_end_le (w := ww) hy (show x + 1 ≤ ww by omega)
  simp only [flat_idx, CHANNELS] at *
  omega

theorem coord_span_iff {ww iw px py x y c j : ℕ} (hx : x < ww) (hc : c < CHANNELS)
    (hwi : px + iw ≤ ww) :
    (flat_idx px (py + j) ww * CHANNELS ≤ flat_idx x y ww * CHANNELS + c ∧
      flat_idx x y ww * CHANNELS + c <
        flat_idx px (py + j) ww * CHANNELS + iw * CHANNELS) ↔
    (y = py + j ∧ px ≤ x ∧ x < px + iw) := by
  simp only [flat_idx, CHANNELS] at *
  constructor
  · rintro ⟨h1, h2⟩
    have hy : y = py + j := by
      rcases Nat.lt_trichotomy y (py + j) with hlt | he | hgt
      · have ha : (y + 1) * ww ≤ (py + j) * ww := Nat.mul_le_mul_right ww (by omega)
        have hb2 : (y + 1) * ww = y * ww + ww := by ring
        omega
      · exact he
      · have ha : (py + j + 1) * ww ≤ y * ww := Nat.mul_le_mul_right ww (by omega)
        have hb2 : (py + j + 1) * ww = (py + j) * ww + ww := by ring
        omega
    subst hy
    omega
  · rintro ⟨rfl, h1, h2⟩
    omega

/-- Inside the image region the byte read back from the window equals the corresponding
    source byte; index bookkeeping for the written-row characterisation. -/
theorem inside_index_eq {ww iw px py x y c j : ℕ} (hx : px ≤ x) (hy : y = py + j) :
    flat_idx 0 (0 + j) iw * CHANNELS +
      (flat_idx x y ww * CHANNELS + c - flat_idx px (py + j) ww * CHANNELS) =
    flat_idx (x - px) (y - py) iw * CHANNELS + c := by
  subst hy
  simp only [flat_idx, CHANNELS, Nat.zero_add, Nat.add_sub_cancel_left, Nat.add_zero]
  omega

/-- Full characterisation of buffer_window for an image no larger than the window, at
    pan offset (0,0): the copy lands centered, and every byte outside the image region
    keeps the zero value the destination was allocated with. -/
theorem buffer_window_small {buffer : List ℕ} {iw ih ww wh : ℕ}
    (hw : iw ≤ ww) (hh : ih ≤ wh) (hb : buffer.length = iw * ih * CHANNELS) :
    ∃ res, buffer_window buffer (iw, ih) (ww, wh) (0, 0) = some res ∧
      res.length = ww * wh * CHANNELS ∧
      ∀ x y c, x < ww → y < wh → c < CHANNELS →
        ((buffer_padding ww iw ≤ x ∧ x < buffer_padding ww iw + iw ∧
          buffer_padding wh ih ≤ y ∧ y < buffer_padding wh ih + ih) →
          res[flat_idx x y ww * CHANNELS + c]? =
            buffer[flat_idx (x - buffer_padding ww iw) (y - buffer_padding wh ih) iw
              * CHANNELS + c]?) ∧
        (¬(buffer_padding ww iw ≤ x ∧ x < buffer_padding ww iw + iw ∧
          buffer_padding wh ih ≤ y ∧ y < buffer_padding wh ih + ih) →
          res[flat_idx x y ww * CHANNELS + c]? = some 0) := by
  obtain ⟨res, hres, hlen⟩ := @buffer_window_safe buffer iw ih ww wh 0 0 hb
    (by rw [pan_limit_zero_of_le hw]; norm_num)
    (by rw [pan_limit_zero_of_le hw])
    (by rw [pan_limit_zero_of_le hh]; norm_num)
    (by rw [pan_limit_zero_of_le hh])
  have hcopy : copyRows buffer iw ww (buffer_padding ww iw) (buffer_padding wh ih) 0 iw 0
      (List.replicate (ww * wh * CHANNELS) 0) 0 ih = some res := by
    have h0 : buffer_window buffer (iw, ih) (ww, wh) (0, 0) =
        copyRows buffer iw ww (buffer_padding ww iw) (buffer_padding wh ih) 0 iw 0
          (List.replicate (ww * wh * CHANNELS) 0) 0 ih := by
      simp only [buffer_window, centered_span_zero_of_le hw, centered_span_zero_of_le hh]
      have e1 : min (ww - 0) iw = iw := by omega
      have e2 : min wh ih = ih := by omega
      rw [e1, e2, Nat.sub_zero]
    rw [← h0]
    exact hres
  have hwi : buffer_padding ww iw + iw ≤ ww := by
    have := buffer_padding_slice_le ww iw
    omega
  refine ⟨res, hres, hlen, fun x y c hx hy hc => ⟨fun hin => ?_, fun hout => ?_⟩⟩
  · obtain ⟨hin1, hin2, hin3, hin4⟩ := hin
    have hspan := (@coord_span_iff ww iw (buffer_padding ww iw) (buffer_padding wh ih)
      x y c (y - buffer_padding wh ih) hx hc hwi).mpr ⟨by omega, hin1, hin2⟩
    have := copyRows_written hcopy hwi (y - buffer_padding wh ih)
      (flat_idx x y ww * CHANNELS + c) (Nat.zero_le _) (by omega) hspan
    rw [this]
    rw [inside_index_eq (j := y - buffer_padding wh ih) hin1 (by omega)]
  · have hunt := copyRows_untouched hcopy (flat_idx x y ww * CHANNELS + c) ?_
    · rw [hunt]
      exact replicate_getElem_lt (coord_lt_len hx hy hc)
    · intro j hj hj2 hcon
      have := (coord_span_iff (j := j) hx hc hwi).mp hcon
      omega

/-! ### Lemmas about the Animator worker loop -/

theorem safc_nil : sends_after_flag_clear [] = false := rfl

theorem safc_cons_send (u : ℚ) (ok : Bool) (l : List (ℚ × WEvent)) :
    sends_after_flag_clear ((u, WEvent.send ok) :: l) = sends_after_flag_clear l := rfl

theorem safc_cons_check_true (u : ℚ) (l : List (ℚ × WEvent)) :
    sends_after_flag_clear ((u, WEvent.checkFlag true) :: l) = sends_after_flag_clear l := rfl

theorem passRun_sends (tSink : ℚ) (ds : List ℚ) (t : ℚ) :
    ∀ e ∈ (passRun tSink ds t).1, ∃ u ok, e = (u, WEvent.send ok) := by
  induction ds generalizing t with
  | nil => intro e he; simp [passRun] at he
  | cons d ds ih =>
    intro e he
    simp only [passRun] at he
    split_ifs at he with hu
    · rcases List.mem_cons.mp he with rfl | he2
      · exact ⟨_, _, rfl⟩
      · exact ih (t + d) e he2
    · rcases List.mem_singleton.mp he with rfl
      exact ⟨_, _, rfl⟩

theorem safc_all_sends (l : List (ℚ × WEvent))
    (h : ∀ e ∈ l, ∃ u ok, e = (u, WEvent.send ok)) :
    sends_after_flag_clear l = false := by
  induction l with
  | nil => rfl
  | cons e l ih =>
    obtain ⟨u, ok, rfl⟩ := h e (by simp)
    rw [safc_cons_send]
    exact ih fun e2 he2 => h e2 (by simp [he2])

theorem safc_append_sends (xs ys : List (ℚ × WEvent))
    (h : ∀ e ∈ xs, ∃ u ok, e = (u, WEvent.send ok)) :
    sends_after_flag_clear (xs ++ ys) = sends_after_flag_clear ys := by
  induction xs with
  | nil => rfl
  | cons e xs ih =>
    obtain ⟨u, ok, rfl⟩ := h e (by simp)
    rw [List.cons_append, safc_cons_send]
    exact ih fun e2 he2 => h e2 (by simp [he2])

/-- The worker never emits a signal after it has observed the stop flag cleared: the
    cleared-flag observation is always the last event of the trace. -/
theorem workerRun_safc (delays : List ℚ) (tStop tSink : ℚ) :
    ∀ fuel t, sends_after_flag_clear (workerRun delays tStop tSink fuel t).1 = false := by
  intro fuel
  induction fuel with
  | zero => intro t; rfl
  | succ f ih =>
    intro t
    simp only [workerRun]
    by_cases hts : t < tStop
    · rw [if_pos hts]
      by_cases hab : (passRun tSink delays t).2.2
      · rw [if_pos hab]
        dsimp only
        rw [safc_cons_check_true]
        exact safc_all_sends _ (passRun_sends tSink delays t)
      · rw [if_neg hab]
        dsimp only
        rw [List.cons_append, safc_cons_check_true]
        rw [safc_append_sends _ _ (passRun_sends tSink delays t)]
        exact ih _
    · rw [if_neg hts]
      rfl

theorem passRun_no_abort (tSink : ℚ) (ds : List ℚ) (t : ℚ) (hd : ∀ d ∈ ds, 0 ≤ d)
    (hs : t + ds.sum < tSink) :
    (passRun tSink ds t).2 = (t + ds.sum, false) := by
  induction ds generalizing t with
  | nil => simp [passRun]
  | cons d ds ih =>
    have hsum : 0 ≤ ds.sum := List.sum_nonneg fun x hx => hd x (by simp [hx])
    have hu : t + d < tSink := by
      simp only [List.sum_cons] at hs
      linarith
    simp only [passRun, if_pos hu]
    have hrest := ih (t + d) (fun x hx => hd x (by simp [hx]))
      (by simp only [List.sum_cons] at hs; linarith)
    simp only [hrest, List.sum_cons]
    rw [add_assoc]

/-- Termination-time bound for the worker: once the stop flag is set at `tStop`, the
    worker returns before `tStop` plus one full pass over the delay list (it finishes the
    pass that was in flight when the flag was stored, then re-checks and exits). -/
theorem workerRun_te_bound (delays : List ℚ) (tStop tSink : ℚ)
    (hd : ∀ d ∈ delays, 0 ≤ d) (hsink : tStop + delays.sum ≤ tSink) :
    ∀ fuel t tr te, t < tStop + delays.sum →
      workerRun delays tStop tSink fuel t = (tr, some te) → te < tStop + delays.sum := by
  intro fuel
  induction fuel with
  | zero =>
    intro t tr te ht h
    simp only [workerRun, Prod.mk.injEq] at h
    cases h.2
  | succ f ih =>
    intro t tr te ht h
    simp only [workerRun] at h
    by_cases hts : t < tStop
    · rw [if_pos hts] at h
      have hp := passRun_no_abort tSink delays t hd
        (lt_of_lt_of_le (by linarith) hsink)
      rw [hp] at h
      simp only [Bool.false_eq_true, if_false] at h
      have h2 : (workerRun delays tStop tSink f (t + delays.sum)).2 = some te := by
        have := congrArg Prod.snd h
        simpa using this
      have hsum : 0 ≤ delays.sum := List.sum_nonneg fun x hx => hd x hx
      exact ih (t + delays.sum) _ te (by linarith)
        (Prod.ext rfl h2)
    · rw [if_neg hts] at h
      have h2 : te = t := by
        have := congrArg Prod.snd h
        simpa using this.symm
      subst h2
      exact ht

theorem range_map_succ_decomp {α : Type} (f : ℕ → α) (n : ℕ) :
    (List.range (n + 1)).map f = f 0 :: (List.range n).map fun j => f (j + 1) := by
  rw [List.range_succ_eq_map, List.map_cons, List.map_map]
  rfl

/-- When the sink is torn down mid-pass, the pass stops at the first failed send: the
    worker sleeps the delays up to and including the failing one, emits the successful
    sends, then the failed send, and aborts with no event for any later delay. -/
theorem passRun_first_fail (tSink : ℚ) (delays : List ℚ) (t : ℚ) (k : ℕ)
    (hk : k < delays.length)
    (hpre : ∀ j, j < k → t + ((delays.take (j + 1)).sum) < tSink)
    (hfail : tSink ≤ t + ((delays.take (k + 1)).sum)) :
    passRun tSink delays t =
      ((List.range (k + 1)).map fun j =>
        (t + (delays.take (j + 1)).sum, WEvent.send (decide (j < k))),
       (t + (delays.take (k + 1)).sum, true)) := by
  induction k generalizing delays t with
  | zero =>
    cases delays with
    | nil => simp at hk
    | cons d ds =>
      have hs : (((d :: ds).take 1).sum) = d := by simp
      rw [hs] at hfail
      simp only [passRun]
      rw [if_neg (by linarith)]
      simp [hs, List.range_succ]
  | succ k ih =>
    cases delays with
    | nil => simp at hk
    | cons d ds =>
      have hd : t + d < tSink := by
        have h0 := hpre 0 (Nat.succ_pos k)
        simpa using h0
      simp only [passRun]
      rw [if_pos hd]
      have ihe := ih ds (t + d) (by simpa using hk)
        (fun j hj => by
          have := hpre (j + 1) (by omega)
          simpa [List.take_succ_cons, add_assoc] using this)
        (by
          have := hfail
          simpa [List.take_succ_cons, add_assoc] using this)
      have h1 : (passRun tSink ds (t + d)).1 =
          (List.range (k + 1)).map fun j =>
            (t + d + (ds.take (j + 1)).sum, WEvent.send (decide (j < k))) := by
        rw [ihe]
      have h2 : (passRun tSink ds (t + d)).2 =
          (t + d + ((ds.take (k + 1)).sum), true) := by
        rw [ihe]
      have hlist : ((List.range (k + 1 + 1)).map fun j =>
            (t + ((d :: ds).take (j + 1)).sum, WEvent.send (decide (j < k + 1)))) =
          (t + d, WEvent.send true) :: (List.range (k + 1)).map fun j =>
            (t + d + (ds.take (j + 1)).sum, WEvent.send (decide (j < k))) := by
        rw [range_map_succ_decomp]
        refine List.cons_eq_cons.mpr ⟨?_, ?_⟩
        · simp [Nat.succ_pos]
        · refine List.map_congr_left fun j hj => ?_
          simp only [List.take_succ_cons, List.sum_cons, Prod.mk.injEq,
            Nat.succ_lt_succ_iff]
          exact ⟨by ring, trivial⟩
      refine Prod.ext ?_ ?_
      · dsimp only
        rw [h1, hlist]
      · dsimp only
        rw [h2]
        simp [List.take_succ_cons, add_assoc]

/-! ### Lemmas about Image and ImageView -/

theorem Image.scaled_size (img : Image) (z : ℚ) :
    (img.scaled z).size = scale_size img.size z := by
  cases img <;> simp [Image.scaled, Image.size, scale_image_fast]

theorem Image.next_frame_size {img : Image} {r : List ℕ × Image}
    (h : img.next_frame = some r) : r.2.size = img.size := by
  cases img with
  | single data s =>
    simp only [Image.next_frame, Option.some_inj] at h
    rw [← h]
  | sequence frames ds ix s =>
    simp only [Image.next_frame, Option.map_eq_some'] at h
    obtain ⟨d, hd, h2⟩ := h
    rw [← h2]
    rfl

theorem view_buffer_window_inv {pixels : Pixels} {image : Image} {pan : ℤ × ℤ}
    {r : Pixels × Image} (h : view_buffer_window pixels image pan = some r) :
    r.1.width = pixels.width ∧ r.1.height = pixels.height ∧
    r.1.renderOk = pixels.renderOk ∧ r.2.size = image.size ∧
    ∃ d, image.next_frame = some (d, r.2) ∧
      ∃ view, buffer_window d image.size (pixels.width, pixels.height) pan = some view ∧
        r.1.frame = view := by
  unfold view_buffer_window at h
  split at h
  · cases h
  · rename_i q hn
    split at h
    · cases h
    · rename_i view hv
      split_ifs at h with hl
      obtain rfl := Option.some_inj.mp h
      refine ⟨rfl, rfl, rfl, Image.next_frame_size (r := q) hn, q.1, ?_, view, hv, rfl⟩
      rw [hn]

theorem update_inv {v v2 : ImageView} (h : ImageView.update v = some v2) :
    v2.zoom = v.zoom ∧ v2.pixels.width = v.pixels.width ∧
    v2.pixels.height = v.pixels.height ∧ v2.pixels.renderOk = v.pixels.renderOk ∧
    v2.pan = v.clamp_pan ∧
    (∀ s, v.scaled = some s → v2.image = v.image ∧
      ∃ s2, v2.scaled = some s2 ∧ s2.size = s.size) := by
  unfold ImageView.update at h
  cases hs : v.scaled with
  | some s =>
    rw [hs] at h
    rw [Option.map_eq_some'] at h
    obtain ⟨r, hr, rfl⟩ := h
    obtain ⟨h1, h2, h3, h4, -⟩ := view_buffer_window_inv hr
    exact ⟨rfl, h1, h2, h3, rfl, fun s3 hs3 => by
      obtain rfl := Option.some_inj.mp hs3
      exact ⟨rfl, r.2, rfl, h4⟩⟩
  | none =>
    rw [hs] at h
    rw [Option.map_eq_some'] at h
    obtain ⟨r, hr, rfl⟩ := h
    obtain ⟨h1, h2, h3, h4, -⟩ := view_buffer_window_inv hr
    exact ⟨rfl, h1, h2, h3, rfl, fun s3 hs3 => nomatch hs3⟩

theorem set_zoom_inv {v v2 : ImageView} {z : ℚ} (h : ImageView.set_zoom v z = some v2) :
    v2.zoom = z ∧ v2.image = v.image ∧ v2.pixels.width = v.pixels.width ∧
    v2.pixels.height = v.pixels.height ∧ v2.pixels.renderOk = v.pixels.renderOk ∧
    ∃ s2, v2.scaled = some s2 ∧ s2.size = scale_size v.image.size z := by
  unfold ImageView.set_zoom at h
  obtain ⟨h1, h2, h3, h4, h5, h6⟩ := update_inv h
  obtain ⟨hi, s2, hs2, hsz⟩ := h6 (v.image.scaled z) rfl
  refine ⟨h1, by rw [hi], h2, h3, h4, s2, hs2, ?_⟩
  rw [hsz, Image.scaled_size]

theorem next_frame_iter_sequence (frames : List (List ℕ)) (ds : List ℚ) (s : ℕ × ℕ) :
    ∀ i ix, next_frame_iter (.sequence frames ds ix s) i =
      (frames[(ix + i) % frames.length]?).map fun d =>
        (d, .sequence frames ds (ix + i + 1) s) := by
  intro i
  induction i with
  | zero => intro ix; simp [next_frame_iter, Image.next_frame]
  | succ n ih =>
    intro ix
    simp only [next_frame_iter, Image.next_frame]
    cases hf : frames[ix % frames.length]? with
    | none =>
      have hlen : frames.length = 0 := by
        by_contra hne
        rw [List.getElem?_eq_none_iff] at hf
        exact absurd (Nat.mod_lt ix (Nat.pos_of_ne_zero hne)) (by omega)
      rw [List.getElem?_eq_none_iff.mpr (by rw [hlen]; omega)]
      simp
    | some d =>
      simp only [Option.map_some', Option.some_bind]
      rw [ih (ix + 1)]
      have : ix + 1 + n = ix + (n + 1) := by omega
      rw [this]

/-! ### Claim theorems -/

/-- C4 (amended): for W < I, the crop start at the clamped pan extremes depends on the
    parities of I and W.  When I and W have the same parity the spec formula holds
    exactly: start is I - W at the positive extreme and 0 at the negative extreme.  When
    I is odd and W even the positive extreme yields I - W - 1 (one short of the spec
    claim); when I is even and W odd the negative extreme yields 1 instead of 0. -/
theorem C4_pan_extreme_crop_start (I W : ℕ) (h : W < I) :
    (I % 2 = W % 2 →
      (centered_span I W (pan_limit I W)).1 = I - W ∧
      (centered_span I W (-pan_limit I W)).1 = 0) ∧
    (I % 2 = 1 → W % 2 = 0 →
      (centered_span I W (pan_limit I W)).1 = I - W - 1 ∧
      (centered_span I W (-pan_limit I W)).1 = 0) ∧
    (I % 2 = 0 → W % 2 = 1 →
      (centered_span I W (pan_limit I W)).1 = I - W ∧
      (centered_span I W (-pan_limit I W)).1 = 1) := by
  simp only [centered_span, pan_limit]
  refine ⟨fun hp => ⟨?_, ?_⟩, fun h1 h2 => ⟨?_, ?_⟩, fun h1 h2 => ⟨?_, ?_⟩⟩ <;> omega

/-- C4 counterexample: I = 5, W = 2 (image odd, window even).  The pan limit is 1, and at
    the positive extreme the crop start is 2, not I - W = 3 as the claim states. -/
theorem C4_counterexample :
    pan_limit 5 2 = 1 ∧ (centered_span 5 2 (pan_limit 5 2)).1 = 2 ∧
    (centered_span 5 2 (pan_limit 5 2)).1 ≠ 5 - 2 := by decide

/-- C4 witness: I = 5, W = 3 (same parity), where the amended claim gives exactly I - W
    and 0 at the two extremes. -/
theorem C4_witness :
    3 < 5 ∧ 5 % 2 = 3 % 2 ∧ (centered_span 5 3 (pan_limit 5 3)).1 = 5 - 3 ∧
      (centered_span 5 3 (-pan_limit 5 3)).1 = 0 :=
  ⟨by decide, by decide, ((C4_pan_extreme_crop_start 5 3 (by decide)).1 (by decide)).1,
    ((C4_pan_extreme_crop_start 5 3 (by decide)).1 (by decide)).2⟩

/-- C10: for a buffer of the advertised size and a pan offset within the clamp limits
    max(0, floor(I/2 - W/2)) per axis, buffer_window performs no out-of-bounds slice
    access (the model returns none exactly when a Rust slice range would be out of
    bounds) and returns a buffer of exactly win_width * win_height * 4 bytes. -/
theorem C10_buffer_window_in_bounds (buffer : List ℕ) (iw ih ww wh : ℕ) (ox oy : ℤ)
    (hb : buffer.length = iw * ih * CHANNELS)
    (hx1 : -pan_limit iw ww ≤ ox) (hx2 : ox ≤ pan_limit iw ww)
    (hy1 : -pan_limit ih wh ≤ oy) (hy2 : oy ≤ pan_limit ih wh) :
    ∃ res, buffer_window buffer (iw, ih) (ww, wh) (ox, oy) = some res ∧
      res.length = ww * wh * CHANNELS :=
  buffer_window_safe hb hx1 hx2 hy1 hy2

/-- C10 witness: a 2x2 image windowed into a 1x1 surface at pan (0,0). -/
theorem C10_witness :
    (List.replicate 16 1).length = 2 * 2 * CHANNELS ∧
    (-pan_limit 2 1 ≤ (0 : ℤ) ∧ (0 : ℤ) ≤ pan_limit 2 1) ∧
    ∃ res, buffer_window (List.replicate 16 1) (2, 2) (1, 1) (0, 0) = some res ∧
      res.length = 1 * 1 * CHANNELS :=
  ⟨by decide, ⟨by decide, by decide⟩,
    C10_buffer_window_in_bounds (List.replicate 16 1) 2 2 1 1 0 0 (by decide) (by decide)
      (by decide) (by decide) (by decide)⟩

/-- C5: for an image no larger than the window on both axes the pan clamp limits
    degenerate to 0, and at the clamped offset the windowing copy writes the image bytes
    exactly into the centered span while every destination byte outside the image region
    keeps its pre-existing value, the 0 the destination was allocated with. -/
theorem C5_padding_kept (buffer : List ℕ) (iw ih ww wh : ℕ)
    (hw : iw ≤ ww) (hh : ih ≤ wh) (hb : buffer.length = iw * ih * CHANNELS) :
    pan_limit iw ww = 0 ∧ pan_limit ih wh = 0 ∧
    ∃ res, buffer_window buffer (iw, ih) (ww, wh) (0, 0) = some res ∧
      res.length = ww * wh * CHANNELS ∧
      ∀ x y c, x < ww → y < wh → c < CHANNELS →
        ((buffer_padding ww iw ≤ x ∧ x < buffer_padding ww iw + iw ∧
          buffer_padding wh ih ≤ y ∧ y < buffer_padding wh ih + ih) →
          res[flat_idx x y ww * CHANNELS + c]? =
            buffer[flat_idx (x - buffer_padding ww iw) (y - buffer_padding wh ih) iw
              * CHANNELS + c]?) ∧
        (¬(buffer_padding ww iw ≤ x ∧ x < buffer_padding ww iw + iw ∧
          buffer_padding wh ih ≤ y ∧ y < buffer_padding wh ih + ih) →
          res[flat_idx x y ww * CHANNELS + c]? = some 0) :=
  ⟨pan_limit_zero_of_le hw, pan_limit_zero_of_le hh, buffer_window_small hw hh hb⟩

/-- C5 witness: a 1x1 image centered in a 2x2 window. -/
theorem C5_witness :
    ((1 : ℕ) ≤ 2 ∧ ([7, 7, 7, 7] : List ℕ).length = 1 * 1 * CHANNELS) ∧
    (pan_limit 1 2 = 0 ∧ pan_limit 1 2 = 0 ∧
      ∃ res, buffer_window [7, 7, 7, 7] (1, 1) (2, 2) (0, 0) = some res ∧
        res.length = 2 * 2 * CHANNELS ∧
        ∀ x y c, x < 2 → y < 2 → c < CHANNELS →
          ((buffer_padding 2 1 ≤ x ∧ x < buffer_padding 2 1 + 1 ∧
            buffer_padding 2 1 ≤ y ∧ y < buffer_padding 2 1 + 1) →
            res[flat_idx x y 2 * CHANNELS + c]? =
              [7, 7, 7, 7][flat_idx (x - buffer_padding 2 1) (y - buffer_padding 2 1) 1
                * CHANNELS + c]?) ∧
          (¬(buffer_padding 2 1 ≤ x ∧ x < buffer_padding 2 1 + 1 ∧
            buffer_padding 2 1 ≤ y ∧ y < buffer_padding 2 1 + 1) →
            res[flat_idx x y 2 * CHANNELS + c]? = some 0)) :=
  ⟨⟨by decide, by decide⟩, C5_padding_kept [7, 7, 7, 7] 1 1 2 2 (by decide) (by decide)
    (by decide)⟩

/-- C8: on an axis where the image is no larger than the window, the computed padding
    equals the spec formula max(0, floor((W - I)/2)); a 100x100 image in a 200x200 window
    gets exactly 50 pixels of padding and every image pixel lands exactly centered at
    (50 + x, 50 + y), with no cropping (all 100x100 source pixels are copied). -/
theorem C8_centered_padding :
    (∀ I W : ℕ, I ≤ W → (buffer_padding W I : ℤ) = max (((W : ℤ) - I) / 2) 0) ∧
    buffer_padding 200 100 = 50 ∧
    ∀ buffer : List ℕ, buffer.length = 100 * 100 * CHANNELS →
      ∃ res, buffer_window buffer (100, 100) (200, 200) (0, 0) = some res ∧
        res.length = 200 * 200 * CHANNELS ∧
        ∀ x y c, x < 100 → y < 100 → c < CHANNELS →
          res[flat_idx (50 + x) (50 + y) 200 * CHANNELS + c]? =
            buffer[flat_idx x y 100 * CHANNELS + c]? := by
  have h50 : buffer_padding 200 100 = 50 := by decide
  refine ⟨fun I W hIW => ?_, h50, fun buffer hb => ?_⟩
  · simp only [buffer_padding]
    omega
  · obtain ⟨res, hres, hlen, hio⟩ :=
      @buffer_window_small buffer 100 100 200 200 (by omega) (by omega) hb
    refine ⟨res, hres, hlen, fun x y c hx hy hc => ?_⟩
    have hin := (hio (50 + x) (50 + y) c (by omega) (by omega) hc).1
      (by rw [h50]; refine ⟨by omega, by omega, by omega, by omega⟩)
    rw [h50] at hin
    simpa [Nat.add_sub_cancel_left] using hin

/-- C8 witness: the scenario instantiated on a concrete uniform buffer. -/
theorem C8_witness :
    (List.replicate (100 * 100 * CHANNELS) 7).length = 100 * 100 * CHANNELS ∧
    ∃ res, buffer_window (List.replicate (100 * 100 * CHANNELS) 7) (100, 100) (200, 200)
        (0, 0) = some res ∧
      res.length = 200 * 200 * CHANNELS ∧
      ∀ x y c, x < 100 → y < 100 → c < CHANNELS →
        res[flat_idx (50 + x) (50 + y) 200 * CHANNELS + c]? =
          (List.replicate (100 * 100 * CHANNELS) 7)[flat_idx x y 100 * CHANNELS + c]? :=
  ⟨by simp, C8_centered_padding.2.2 (List.replicate (100 * 100 * CHANNELS) 7) (by simp)⟩

/-- C7: on a non-empty Sequence of N frames, the i-th and (i+N)-th next_frame calls
    return the same byte buffer, and every call is defined (the model returns none only
    for an empty sequence, which the hypothesis excludes). -/
theorem C7_sequence_cyclic (frames : List (List ℕ)) (ds : List ℚ) (ix : ℕ) (s : ℕ × ℕ)
    (hne : frames ≠ []) (i : ℕ) :
    (next_frame_iter (.sequence frames ds ix s) i).isSome = true ∧
    (next_frame_iter (.sequence frames ds ix s) i).map Prod.fst =
      (next_frame_iter (.sequence frames ds ix s) (i + frames.length)).map Prod.fst := by
  have hN : 0 < frames.length := List.length_pos.mpr hne
  rw [next_frame_iter_sequence, next_frame_iter_sequence]
  constructor
  · have hlt : (ix + i) % frames.length < frames.length := Nat.mod_lt _ hN
    rw [List.getElem?_eq_getElem hlt]
    simp
  · have hmod : (ix + (i + frames.length)) % frames.length =
        (ix + i) % frames.length := by
      rw [← Nat.add_assoc, Nat.add_mod_right]
    rw [hmod]
    simp only [Option.map_map]
    cases hh2 : frames[(ix + i) % frames.length]? <;> rfl

/-- C7 witness: a two-frame sequence, comparing call 1 with call 1 + 2. -/
theorem C7_witness :
    ([[1], [2]] : List (List ℕ)) ≠ [] ∧
    (next_frame_iter (.sequence [[1], [2]] [] 0 (1, 1)) 1).isSome = true ∧
    (next_frame_iter (.sequence [[1], [2]] [] 0 (1, 1)) 1).map Prod.fst =
      (next_frame_iter (.sequence [[1], [2]] [] 0 (1, 1)) (1 + 2)).map Prod.fst :=
  ⟨by decide, (C7_sequence_cyclic [[1], [2]] [] 0 (1, 1) (by decide) 1).1,
    (C7_sequence_cyclic [[1], [2]] [] 0 (1, 1) (by decide) 1).2⟩

/-- C1 (amended): in a zoomed state (scaled cache present) advance() pulls the next frame
    from the scaled cache, not from the base FrameSource: the base image field is left
    untouched, the displayed bytes are the windowed next frame of the cache, and the
    returned boolean is the presentation outcome. -/
theorem C1_advance_uses_scaled_cache (v : ImageView) (s : Image) (b : Bool)
    (v2 : ImageView) (hs : v.scaled = some s) (h : v.advance = some (b, v2)) :
    b = v.pixels.renderOk ∧ v2.image = v.image ∧
    ∃ r, s.next_frame = some r ∧ v2.scaled = some r.2 ∧
      ∃ view, buffer_window r.1 s.size (v.pixels.width, v.pixels.height) v.clamp_pan
        = some view ∧ v2.pixels.frame = view := by
  unfold ImageView.advance at h
  rw [Option.map_eq_some'] at h
  obtain ⟨v3, hu, hbv⟩ := h
  cases hbv
  unfold ImageView.update at hu
  split at hu
  · rename_i s2 hs2
    rw [hs] at hs2
    obtain rfl := Option.some_inj.mp hs2
    rw [Option.map_eq_some'] at hu
    obtain ⟨r, hr, rfl⟩ := hu
    obtain ⟨h1, h2, h3, h4, d, hnf, view, hview, hframe⟩ := view_buffer_window_inv hr
    refine ⟨?_, rfl, (d, r.2), hnf, rfl, view, hview, hframe⟩
    show r.1.renderOk = v.pixels.renderOk
    exact h3
  · rename_i hs2
    rw [hs] at hs2
    cases hs2

/-- C1 counterexample: with the scaled cache present, advance() presents the cache bytes
    [9,9,9,9]; windowing the next frame of the base FrameSource would give [1,1,1,1],
    so the claim that advance pulls from the base source, not the scaled cache, is false
    on this input. -/
theorem C1_counterexample :
    (viewC1.advance.map fun r => r.2.pixels.frame) = some [9, 9, 9, 9] ∧
    (viewC1.image.next_frame.bind fun r =>
      buffer_window r.1 viewC1.image.size (viewC1.pixels.width, viewC1.pixels.height)
        viewC1.clamp_pan) = some [1, 1, 1, 1] ∧
    ([9, 9, 9, 9] : List ℕ) ≠ [1, 1, 1, 1] := by decide

/-- C1 witness: the amended claim applied to viewC1. -/
theorem C1_witness :
    viewC1.scaled = some (.single [9, 9, 9, 9] (1, 1)) ∧
    viewC1.advance = some (true, viewC1adv) ∧
    (true = viewC1.pixels.renderOk ∧ viewC1adv.image = viewC1.image ∧
      ∃ r, (Image.single [9, 9, 9, 9] (1, 1)).next_frame = some r ∧
        viewC1adv.scaled = some r.2 ∧
        ∃ view, buffer_window r.1 (Image.single [9, 9, 9, 9] (1, 1)).size
          (viewC1.pixels.width, viewC1.pixels.height) viewC1.clamp_pan = some view ∧
          viewC1adv.pixels.frame = view) :=
  ⟨rfl, rfl, C1_advance_uses_scaled_cache viewC1 (.single [9, 9, 9, 9] (1, 1)) true
    viewC1adv rfl rfl⟩

/-- C2 (amended): once the stop flag is stored at time tStop, the worker re-checks it
    only at the head of the outer loop, after completing the full in-flight pass over the
    delay list; provided the sink outlives the run, the worker terminates before
    tStop + sum(delays) (the in-flight pass bound, not the single in-flight delay the
    original claim states), and it emits no signal after observing the cleared flag. -/
theorem C2_stop_bound_amended (delays : List ℚ) (tStop tSink : ℚ) (fuel : ℕ) (t : ℚ)
    (tr : List (ℚ × WEvent)) (te : ℚ)
    (hd : ∀ d ∈ delays, 0 ≤ d) (hsink : tStop + delays.sum ≤ tSink)
    (ht : t < tStop + delays.sum)
    (h : workerRun delays tStop tSink fuel t = (tr, some te)) :
    te < tStop + delays.sum ∧ sends_after_flag_clear tr = false := by
  refine ⟨workerRun_te_bound delays tStop tSink hd hsink fuel t tr te ht h, ?_⟩
  have hsa := workerRun_safc delays tStop tSink fuel t
  rw [h] at hsa
  exact hsa

/-- C2 counterexample: delays [1, 100], stop requested at time 1/2 during the first
    sleep, sink alive.  The worker does not re-check the flag after the in-flight delay:
    it sleeps through the remaining 100-second delay as well, terminating at time 101, so
    teardown blocks for 100.5 seconds, far beyond the one-second in-flight delay the
    claim allows; the trace shows no flag check between the two sends. -/
theorem C2_counterexample :
    workerRun [1, 100] (1/2) 1000000 2 0 =
      ([(0, WEvent.checkFlag true), (1, WEvent.send true), (101, WEvent.send true),
        (101, WEvent.checkFlag false)], some 101) ∧
    ¬ ((101 : ℚ) - 1/2 ≤ 1) := by
  constructor
  · norm_num [workerRun, passRun]
  · norm_num

/-- C2 witness: delays [1], stop at 1/2, sink alive: the worker finishes the in-flight
    pass and exits at time 1 < 1/2 + 1, with no send after the cleared-flag check. -/
theorem C2_witness :
    (∀ d ∈ [(1 : ℚ)], 0 ≤ d) ∧ ((1 : ℚ)/2 + [(1 : ℚ)].sum ≤ 100) ∧
    ((0 : ℚ) < 1/2 + [(1 : ℚ)].sum) ∧
    workerRun [1] (1/2) 100 2 0 =
      ([(0, WEvent.checkFlag true), (1, WEvent.send true), (1, WEvent.checkFlag false)],
        some 1) ∧
    ((1 : ℚ) < 1/2 + [(1 : ℚ)].sum ∧
      sends_after_flag_clear
        [(0, WEvent.checkFlag true), (1, WEvent.send true), (1, WEvent.checkFlag false)]
        = false) := by
  have hrun : workerRun [1] (1/2) 100 2 0 =
      ([(0, WEvent.checkFlag true), (1, WEvent.send true), (1, WEvent.checkFlag false)],
        some 1) := by
    norm_num [workerRun, passRun]
  refine ⟨by norm_num, by norm_num, by norm_num, hrun, ?_⟩
  exact C2_stop_bound_amended [1] (1/2) 100 2 0 _ 1 (by norm_num) (by norm_num)
    (by norm_num) hrun

/-- C9: if the k-th send of a pass fails (the sink is torn down at tSink), the worker
    emits no further event and stops at the time of the failed send: the delays after the
    failing one are never slept, and the loop exits via the abort branch without error. -/
theorem C9_send_failure_stops (delays : List ℚ) (tSink t : ℚ) (k : ℕ)
    (hk : k < delays.length)
    (hpre : ∀ j, j < k → t + ((delays.take (j + 1)).sum) < tSink)
    (hfail : tSink ≤ t + ((delays.take (k + 1)).sum)) :
    passRun tSink delays t =
      ((List.range (k + 1)).map fun j =>
        (t + (delays.take (j + 1)).sum, WEvent.send (decide (j < k))),
       (t + (delays.take (k + 1)).sum, true)) ∧
    ∀ tStop fuel, t < tStop →
      workerRun delays tStop tSink (fuel + 1) t =
        ((t, WEvent.checkFlag true) :: (List.range (k + 1)).map (fun j =>
          (t + (delays.take (j + 1)).sum, WEvent.send (decide (j < k)))),
         some (t + (delays.take (k + 1)).sum)) := by
  have hp := passRun_first_fail tSink delays t k hk hpre hfail
  refine ⟨hp, fun tStop fuel hts => ?_⟩
  simp only [workerRun]
  rw [if_pos hts, hp]
  dsimp only
  rw [if_pos rfl]

/-- C9 witness: delays [1, 2] with the sink torn down at time 1; the very first send
    fails and the worker stops at time 1 without sleeping the 2-second delay. -/
theorem C9_witness :
    (0 < ([(1 : ℚ), 2]).length) ∧
    ((1 : ℚ) ≤ 0 + (([(1 : ℚ), 2]).take (0 + 1)).sum) ∧
    (passRun 1 [1, 2] 0 =
      ((List.range (0 + 1)).map fun j =>
        ((0 : ℚ) + (([(1 : ℚ), 2]).take (j + 1)).sum, WEvent.send (decide (j < 0))),
       ((0 : ℚ) + (([(1 : ℚ), 2]).take (0 + 1)).sum, true)) ∧
    ∀ tStop fuel, (0 : ℚ) < tStop →
      workerRun [1, 2] tStop 1 (fuel + 1) 0 =
        (((0 : ℚ), WEvent.checkFlag true) :: (List.range (0 + 1)).map (fun j =>
          ((0 : ℚ) + (([(1 : ℚ), 2]).take (j + 1)).sum, WEvent.send (decide (j < 0)))),
         some ((0 : ℚ) + (([(1 : ℚ), 2]).take (0 + 1)).sum))) :=
  ⟨by decide, by norm_num, C9_send_failure_stops [1, 2] 1 0 0 (by decide)
    (fun j hj => absurd hj (Nat.not_lt_zero j)) (by norm_num)⟩

/-! ### Evaluation lemmas for the concrete zoom states -/

theorem scaled_8888 (z : ℚ) (hz : scale_size (1, 1) z = (1, 1)) :
    Image.scaled (.single [8, 8, 8, 8] (1, 1)) z = .single [8, 8, 8, 8] (1, 1) := by
  simp only [Image.scaled, scale_image_fast, hz]
  decide

theorem scaled_5555 (z : ℚ) (hz : scale_size (1, 1) z = (1, 1)) :
    Image.scaled (.single [5, 5, 5, 5] (1, 1)) z = .single [5, 5, 5, 5] (1, 1) := by
  simp only [Image.scaled, scale_image_fast, hz]
  decide

theorem scaled_5555_empty (z : ℚ) (hz : scale_size (1, 1) z = (0, 0)) :
    Image.scaled (.single [5, 5, 5, 5] (1, 1)) z = .single [] (0, 0) := by
  simp only [Image.scaled, scale_image_fast, hz]
  decide

theorem scale_size_one_one_step : scale_size (1, 1) (1 + ZOOM_STEP) = (1, 1) := by
  norm_num [scale_size, ZOOM_STEP]

theorem vOne_zoom_in : vOne.zoom_in = some vOneIn := by
  unfold ImageView.zoom_in ImageView.set_zoom
  have hsc : vOne.image.scaled (vOne.zoom + ZOOM_STEP) = .single [8, 8, 8, 8] (1, 1) :=
    scaled_8888 _ (by norm_num [scale_size, ZOOM_STEP, vOne])
  rw [hsc]
  rfl

theorem vOne_zoom_out : vOne.zoom_out = some vOneOut := by
  unfold ImageView.zoom_out
  have harg : max (vOne.zoom - ZOOM_STEP) MIN_ZOOM = 9/10 := by
    rw [show vOne.zoom - ZOOM_STEP = 9/10 by norm_num [vOne, ZOOM_STEP]]
    exact max_eq_left (by norm_num [MIN_ZOOM])
  rw [harg]
  unfold ImageView.set_zoom
  have hsc : vOne.image.scaled (9/10) = .single [8, 8, 8, 8] (1, 1) :=
    scaled_8888 _ (by norm_num [scale_size])
  rw [hsc]
  rfl

theorem vOneIn_zoom_out : vOneIn.zoom_out = some vOneRT := by
  unfold ImageView.zoom_out
  have harg : max (vOneIn.zoom - ZOOM_STEP) MIN_ZOOM = 1 := by
    rw [show vOneIn.zoom - ZOOM_STEP = 1 by
      show (1 : ℚ) + ZOOM_STEP - ZOOM_STEP = 1
      ring]
    exact max_eq_left (by norm_num [MIN_ZOOM])
  rw [harg]
  unfold ImageView.set_zoom
  have hsc : vOneIn.image.scaled 1 = .single [8, 8, 8, 8] (1, 1) :=
    scaled_8888 _ (by norm_num [scale_size])
  rw [hsc]
  rfl

theorem viewC6_zoom_in : viewC6.zoom_in = some viewC6In := by
  unfold ImageView.zoom_in
  have harg : viewC6.zoom + ZOOM_STEP = 7/20 := by norm_num [viewC6, ZOOM_STEP]
  rw [harg]
  unfold ImageView.set_zoom
  have hsc : viewC6.image.scaled (7/20) = .single [] (0, 0) :=
    scaled_5555_empty _ (by norm_num [scale_size])
  rw [hsc]
  rfl

theorem viewC6In_zoom_out : viewC6In.zoom_out = some viewC6RT := by
  unfold ImageView.zoom_out
  have harg : max (viewC6In.zoom - ZOOM_STEP) MIN_ZOOM = 1/2 := by
    rw [show viewC6In.zoom - ZOOM_STEP = 1/4 by
      show (7 : ℚ)/20 - ZOOM_STEP = 1/4
      norm_num [ZOOM_STEP]]
    exact max_eq_right (by norm_num [MIN_ZOOM])
  rw [harg]
  unfold ImageView.set_zoom
  have hsc : viewC6In.image.scaled (1/2) = .single [5, 5, 5, 5] (1, 1) :=
    scaled_5555 _ (by norm_num [scale_size])
  rw [hsc]
  rfl

/-- C3 (amended): zoom = 1 ≥ MIN_ZOOM after construction; zoom_in preserves
    zoom ≥ MIN_ZOOM; zoom_out re-establishes zoom ≥ MIN_ZOOM unconditionally; resize
    without fit_image leaves the zoom unchanged.  Resize with fit_image is excluded: it
    stores the unclamped fit ratio, which can fall below MIN_ZOOM (see the
    counterexample). -/
theorem C3_min_zoom_amended :
    (∀ (img : Image) (ok : Bool) (v : ImageView),
      ImageView.init img ok = some v → v.zoom = 1 ∧ MIN_ZOOM ≤ v.zoom) ∧
    (∀ v v2 : ImageView, MIN_ZOOM ≤ v.zoom → v.zoom_in = some v2 → MIN_ZOOM ≤ v2.zoom) ∧
    (∀ v v2 : ImageView, v.zoom_out = some v2 → MIN_ZOOM ≤ v2.zoom) ∧
    (∀ (v v2 : ImageView) (w h : ℕ), v.resize w h false = some v2 → v2.zoom = v.zoom) := by
  refine ⟨fun img ok v h => ?_, fun v v2 hz h => ?_, fun v v2 h => ?_,
    fun v v2 w h hr => ?_⟩
  · unfold ImageView.init at h
    rw [Option.map_eq_some'] at h
    obtain ⟨r, hr, rfl⟩ := h
    exact ⟨rfl, by norm_num [MIN_ZOOM]⟩
  · unfold ImageView.zoom_in at h
    obtain ⟨h1, -⟩ := set_zoom_inv h
    rw [h1]
    have hstep : (0 : ℚ) ≤ ZOOM_STEP := by norm_num [ZOOM_STEP]
    linarith
  · unfold ImageView.zoom_out at h
    obtain ⟨h1, -⟩ := set_zoom_inv h
    rw [h1]
    exact le_max_right _ _
  · unfold ImageView.resize at hr
    simp only [Bool.false_eq_true, if_false] at hr
    obtain rfl := Option.some_inj.mp hr
    rfl

/-- C3 counterexample: resizing the 3x3 view to a 1x1 surface with fit_image stores
    zoom = 1/3, strictly below MIN_ZOOM = 1/2, so the invariant does not survive resize
    with fit_image set. -/
theorem C3_counterexample :
    ((viewC3.resize 1 1 true).map ImageView.zoom) = some (1/3) ∧
    ¬ MIN_ZOOM ≤ ((1 : ℚ)/3) := by
  constructor
  · have h1 : viewC3.resize 1 1 true =
        ImageView.set_zoom
          { viewC3 with
            pixels :=
              { viewC3.pixels with
                width := 1
                height := 1
                frame := List.replicate (1 * 1 * CHANNELS) 0 } }
          (min (((1 : ℕ) : ℚ) / ((3 : ℕ) : ℚ)) (((1 : ℕ) : ℚ) / ((3 : ℕ) : ℚ))) := rfl
    rw [h1, min_self]
    rw [show (((1 : ℕ) : ℚ) / ((3 : ℕ) : ℚ)) = 1/3 by norm_num]
    have h2 : ImageView.set_zoom
        { viewC3 with
          pixels :=
            { viewC3.pixels with
              width := 1
              height := 1
              frame := List.replicate (1 * 1 * CHANNELS) 0 } }
        (1/3) = some viewC3R := by
      unfold ImageView.set_zoom
      have hsc : ({ viewC3 with
          pixels :=
            { viewC3.pixels with
              width := 1
              height := 1
              frame := List.replicate (1 * 1 * CHANNELS) 0 } } : ImageView).image.scaled
          (1/3) = .single [5, 5, 5, 5] (1, 1) := by
        show Image.scaled (.single (List.replicate 36 5) (3, 3)) (1/3) = _
        have hz : scale_size (3, 3) (1/3) = (1, 1) := by norm_num [scale_size]
        simp only [Image.scaled, scale_image_fast, hz]
        decide
      rw [hsc]
      rfl
    rw [h2]
    rfl
  · norm_num [MIN_ZOOM]

/-- C3 witness: the amended invariant checked on concrete states: construction, a
    zoom_in from zoom 1, a zoom_out from zoom 1, and a plain resize. -/
theorem C3_witness :
    (vOne.zoom = 1 ∧ MIN_ZOOM ≤ vOne.zoom) ∧ MIN_ZOOM ≤ vOneIn.zoom ∧
    MIN_ZOOM ≤ vOneOut.zoom ∧ vOneRz.zoom = vOne.zoom :=
  ⟨C3_min_zoom_amended.1 (.single [8, 8, 8, 8] (1, 1)) true vOne rfl,
   C3_min_zoom_amended.2.1 vOne vOneIn (by norm_num [vOne, MIN_ZOOM]) vOne_zoom_in,
   C3_min_zoom_amended.2.2.1 vOne vOneOut vOne_zoom_out,
   C3_min_zoom_amended.2.2.2 vOne vOneRz 2 2 rfl⟩

/-- C6 (amended): for a starting zoom at or above MIN_ZOOM, zoom_in followed by
    zoom_out returns the zoom exactly to its starting value (the rational model of the
    float arithmetic is exact, which is within any rounding tolerance), the surface
    dimensions are unchanged, and the regenerated scaled cache has the size dictated by
    the restored zoom, so the pan clamp limits recompute to the same values.  Starting
    zooms below MIN_ZOOM (reachable only through resize with fit_image) are snapped up to
    MIN_ZOOM instead, see the counterexample. -/
theorem C6_zoom_round_trip (v v1 v2 : ImageView) (hz : MIN_ZOOM ≤ v.zoom)
    (h1 : v.zoom_in = some v1) (h2 : v1.zoom_out = some v2) :
    v2.zoom = v.zoom ∧ v2.pixels.width = v.pixels.width ∧
    v2.pixels.height = v.pixels.height ∧
    ∃ s2, v2.scaled = some s2 ∧ s2.size = scale_size v.image.size v.zoom := by
  unfold ImageView.zoom_in at h1
  unfold ImageView.zoom_out at h2
  obtain ⟨e1, ei1, ew1, eh1, er1, -⟩ := set_zoom_inv h1
  obtain ⟨e2, ei2, ew2, eh2, er2, s2, hs2, hsz2⟩ := set_zoom_inv h2
  have hzz : v1.zoom - ZOOM_STEP = v.zoom := by rw [e1]; ring
  have hmax : max (v1.zoom - ZOOM_STEP) MIN_ZOOM = v.zoom := by
    rw [hzz]
    exact max_eq_left hz
  refine ⟨by rw [e2, hmax], by rw [ew2, ew1], by rw [eh2, eh1], s2, hs2, ?_⟩
  rw [hsz2, hmax, ei1]

/-- C6 counterexample: starting at zoom 1/4 (below MIN_ZOOM), zoom_in then zoom_out
    lands on the floor 1/2, not back on 1/4, so the round trip is not the identity for
    every starting zoom value. -/
theorem C6_counterexample :
    ((viewC6.zoom_in.bind ImageView.zoom_out).map ImageView.zoom) = some (1/2) ∧
    viewC6.zoom = 1/4 ∧ ((1 : ℚ)/2) ≠ 1/4 := by
  refine ⟨?_, rfl, by norm_num⟩
  rw [viewC6_zoom_in]
  simp only [Option.some_bind]
  rw [viewC6In_zoom_out]
  rfl

/-- C6 witness: the round trip from zoom 1 on the concrete 1x1 view. -/
theorem C6_witness :
    MIN_ZOOM ≤ vOne.zoom ∧ vOne.zoom_in = some vOneIn ∧ vOneIn.zoom_out = some vOneRT ∧
    (vOneRT.zoom = vOne.zoom ∧ vOneRT.pixels.width = vOne.pixels.width ∧
      vOneRT.pixels.height = vOne.pixels.height ∧
      ∃ s2, vOneRT.scaled = some s2 ∧ s2.size = scale_size vOne.image.size vOne.zoom) :=
  ⟨by norm_num [vOne, MIN_ZOOM], vOne_zoom_in, vOneIn_zoom_out,
    C6_zoom_round_trip vOne vOneIn vOneRT (by norm_num [vOne, MIN_ZOOM]) vOne_zoom_in
      vOneIn_zoom_out⟩

end Vu
